import Mathlib

/-!
Verification development for the planeconsole broker (`broker.go`, `types.go`)
and the attach-side reader loop.

The Go code is shallowly embedded: Go structs become Lean structures, the
ring buffer is a `List (Option Msg)` with a cursor, per-session bounded
channels become FIFO lists with an explicit capacity, and each critical
section (everything done while `ringMu` is held) becomes one pure state
transition.  An encoded NDJSON record (`json.Marshal` output plus newline)
is represented by its content, as `json.Marshal` is injective and never
fails on these struct types.
-/

set_option maxRecDepth 8192

namespace PlaneConsole

/-- `types.go`: `Style` — tview tag style. -/
structure Style where
  fg : String
  bg : String
  attrs : String
deriving DecidableEq, Repr

/-- `types.go`: `CounterSpec` — rolling counter filter. -/
structure CounterSpec where
  match_ : String
  caseSensitive : Bool
  label : String
  windowSeconds : Int
deriving DecidableEq, Repr

/-- `types.go`: `HighlightSpec` — substring highlight with optional style. -/
structure HighlightSpec where
  match_ : String
  caseSensitive : Bool
  style : Option Style
deriving DecidableEq, Repr

/-- `types.go`: `Config` — shared presentation rules.  Go `int` is `Int`. -/
structure Config where
  maxLines : Int
  counters : List CounterSpec
  highlights : List HighlightSpec
deriving DecidableEq, Repr

/-- `types.go`: `DefaultMaxLines = 10000`. -/
def DefaultMaxLines : Int := 10000

/-- `types.go`: `Config.EffectiveMaxLines`. -/
def Config.EffectiveMaxLines (cfg : Config) : Int :=
  if cfg.maxLines ≤ 0 then DefaultMaxLines else cfg.maxLines

/-- `types.go`: `Meta` — first message of every session.  The constant
`Type: "meta"` discriminator field lives in the `Msg` constructor below. -/
structure Meta where
  maxLines : Int
  counters : List CounterSpec
  highlights : List HighlightSpec
deriving DecidableEq, Repr

/-- `types.go`: `Line` — one console line.  The constant `Type: "line"`
discriminator lives in the `Msg` constructor. -/
structure Line where
  tsUs : Int
  text : String
  level : String
deriving DecidableEq, Repr

/-- `types.go`: `Notice` — broker-originated informational message. -/
structure Notice where
  text : String
deriving DecidableEq, Repr

/-- `types.go`: `LevelOf` — derives a coarse level from the line start.
Go's `strings.HasPrefix s "ERROR: "` is embedded as comparing the first
7 characters of `s` with the characters of `"ERROR: "` (the pattern is
ASCII, so the byte comparison Go performs coincides with this). -/
def LevelOf (s : String) : String :=
  if s.data.take 7 = "ERROR: ".data then "error" else "info"

/-- `types.go`: `MakeMeta` — converts config into the meta payload.  The
Go deep copies (`append`, style pointer copy) are identity on values. -/
def MakeMeta (cfg : Config) : Meta :=
  { maxLines := cfg.EffectiveMaxLines
    counters := cfg.counters
    highlights := cfg.highlights }

/-- One encoded NDJSON record as stored in the ring / channels.  The
constructor is the `type` discriminator of the wire format. -/
inductive Msg where
  | metaRec (m : Meta)
  | lineRec (l : Line)
  | noticeRec (n : Notice)
deriving DecidableEq, Repr

/-- `broker.go`: `client` — per-connection state.  `ch` is the outbound
channel as a FIFO list (front = oldest = next to be received) together
with its capacity (`cap(cli.ch)`); conn and the buffered writer are
transport-side and not modelled. -/
structure Client where
  ch : List Msg
  qcap : Nat
deriving DecidableEq, Repr

/-- `broker.go`: the `Broker` fields protected by `ringMu`, plus the
construction-time constants.  The listener lifecycle state is not needed
by any ring/fanout claim. -/
structure Broker where
  cfg : Config
  metaBuf : Msg
  ring : List (Option Msg)
  head : Nat
  capacity : Nat
  clients : List Client
deriving DecidableEq, Repr

/-- `broker.go`: the config normalisation at the top of `NewBroker`
(deep copy, then `if cfg.MaxLines <= 0 { cfg.MaxLines = DefaultMaxLines }`). -/
def normCfg (cfg : Config) : Config :=
  if cfg.maxLines ≤ 0 then { cfg with maxLines := DefaultMaxLines } else cfg

/-- `broker.go`: `NewBroker`. `size := cfg.EffectiveMaxLines()`; the ring
starts as `size` nil slots, `head = 0`, no clients. -/
def NewBroker (cfg : Config) : Broker :=
  let cfg' := normCfg cfg
  { cfg := cfg'
    metaBuf := Msg.metaRec (MakeMeta cfg')
    ring := List.replicate cfg'.EffectiveMaxLines.toNat none
    head := 0
    capacity := cfg'.EffectiveMaxLines.toNat
    clients := [] }

/-- `broker.go`: `enqueue` — write at `head`, advance `head` mod capacity. -/
def Broker.enqueue (b : Broker) (buf : Msg) : Broker :=
  { b with ring := b.ring.set b.head (some buf)
           head := (b.head + 1) % b.capacity }

/-- `broker.go`: `trySend` — non-blocking channel send: succeeds exactly
when the channel has a free slot. -/
def trySend (cli : Client) (buf : Msg) : Client × Bool :=
  if cli.ch.length < cli.qcap then ({ cli with ch := cli.ch ++ [buf] }, true)
  else (cli, false)

/-- `broker.go`: the `for len(cli.ch) == cap(cli.ch)` discard loop inside
`broadcast`: pop from the channel front, counting the pops, until the
channel is no longer full.  Returns the remaining queue and the count. -/
def popWhile (qcap : Nat) : List Msg → List Msg × Nat
  | [] => ([], 0)
  | x :: t =>
    if (x :: t).length = qcap then
      let r := popWhile qcap t
      (r.1, r.2 + 1)
    else (x :: t, 0)

/-- `broker.go`: the notice text `fmt.Sprintf("[viewer lagged; dropped %d lines]", dropped)`. -/
def laggedText (dropped : Nat) : String :=
  "[viewer lagged; dropped " ++ toString dropped ++ " lines]"

/-- `broker.go`: the per-client body of the `broadcast` loop. -/
def broadcastOne (cli : Client) (buf : Msg) : Client :=
  let s := trySend cli buf
  if s.2 then s.1
  else
    let p := popWhile cli.qcap cli.ch
    let cli2 : Client := { cli with ch := p.1 }
    let cli3 := (trySend cli2 buf).1
    if 0 < p.2 then
      (trySend cli3 (Msg.noticeRec ⟨laggedText p.2⟩)).1
    else cli3

/-- `broker.go`: `broadcast` — under `ringMu`, push `buf` to every
registered client with the lag policy. -/
def Broker.broadcast (b : Broker) (buf : Msg) : Broker :=
  { b with clients := b.clients.map (fun cli => broadcastOne cli buf) }

/-- `broker.go`: the `Line` record built by `appendWithWhen`
(`when.UnixMicro()` is taken as the `Int` argument). -/
def encodeLine (whenUs : Int) (text : String) : Msg :=
  Msg.lineRec { tsUs := whenUs, text := text, level := LevelOf text }

/-- `broker.go`: `appendWithWhen` — encode, then `enqueue`, then
`broadcast`.  Note the two calls take the ring lock separately. -/
def Broker.appendWithWhen (b : Broker) (whenUs : Int) (text : String) : Broker :=
  let buf := encodeLine whenUs text
  (b.enqueue buf).broadcast buf

/-- `broker.go`: `safeSend` — guaranteed-delivery send: push if there is
room, otherwise receive one item from the front (evicting the oldest)
and then push.  Both branches return a nil error. -/
def safeSend (cli : Client) (buf : Msg) : Client × Option String :=
  if cli.ch.length < cli.qcap then ({ cli with ch := cli.ch ++ [buf] }, none)
  else ({ cli with ch := cli.ch.tail ++ [buf] }, none)

/-- `broker.go`: the slot sequence `replay` scans: for `i < capacity`,
slot `(head+i) % capacity`. -/
def Broker.window (b : Broker) : List (Option Msg) :=
  (List.range b.capacity).map (fun i => b.ring.getD ((b.head + i) % b.capacity) none)

/-- `broker.go`: the records `replay` actually sends, in order
(every non-nil slot from oldest to newest). -/
def Broker.replayList (b : Broker) : List Msg :=
  b.window.filterMap id

/-- `broker.go`: `replay` — `safeSend` every non-nil slot, oldest first,
into the given client's channel. -/
def Broker.replay (b : Broker) (cli : Client) : Client :=
  b.replayList.foldl (fun c m => (safeSend c m).1) cli

/-- `broker.go`: the fresh client made in `handleNewClient`:
`make(chan []byte, 512)`. -/
def mkClient : Client := { ch := [], qcap := 512 }

/-- `broker.go`: the admission part of `handleNewClient` (under `ringMu`):
at 5 or more registered clients the connection is closed and nothing is
registered (`none`); otherwise a fresh client is registered. -/
def Broker.handleNewClient (b : Broker) : Broker × Option Client :=
  if 5 ≤ b.clients.length then (b, none)
  else ({ b with clients := b.clients ++ [mkClient] }, some mkClient)

/-- `broker.go`: the prefix of the per-session goroutine: send the meta
with `safeSend`; on a non-nil error tear down before replay (`none`),
otherwise run `replay` and hand the session to the drain loop. -/
def Broker.sessionInit (b : Broker) (cli : Client) : Option Client :=
  match safeSend cli b.metaBuf with
  | (_, some _) => none
  | (cli1, none) => some (b.replay cli1)

/-- `broker.go`: a fresh connection on broker `b`: admission, then meta
handshake, then replay.  Yields the session's outbound queue at the
moment the drain loop starts (nothing consumes it before that, since
the drain loop runs in the same goroutine after `replay` returns). -/
def connectedQueue (b : Broker) : List Msg :=
  match b.handleNewClient with
  | (b', some cli) =>
    match b'.sessionInit cli with
    | some c => c.ch
    | none => []
  | (_, none) => []

/-- `broker.go`: the registry removal in the drain goroutine's `defer`
(`delete(b.clients, cli)` under `ringMu`). -/
def Broker.removeClient (b : Broker) (cli : Client) : Broker :=
  { b with clients := b.clients.erase cli }

/-- `broker.go`: the registry clearing in `Stop` (close and delete every
client under `ringMu`). -/
def Broker.stopClients (b : Broker) : Broker :=
  { b with clients := [] }

/-- A sequence of `Append` calls, each given as (timestamp μs, text). -/
def appendAll (b : Broker) (xs : List (Int × String)) : Broker :=
  xs.foldl (fun b p => b.appendWithWhen p.1 p.2) b

/-- The encoded records a sequence of appends produces, in order. -/
def encodeAll (xs : List (Int × String)) : List Msg :=
  xs.map (fun p => encodeLine p.1 p.2)

/-- Broker state after `NewBroker` and `K` appends. -/
def brokerAfterAppends (cfg : Config) (xs : List (Int × String)) : Broker :=
  appendAll (NewBroker cfg) xs

/-- Canonical appended record `i`: `Append` at time `i` of the text
`"x"` (records are distinguished by their timestamps). -/
def recO (i : Nat) : Msg := encodeLine (i : Int) "x"

/-- `K` canonical appends, in order. -/
def demoXs (K : Nat) : List (Int × String) :=
  (List.range K).map (fun (i : Nat) => ((i : Int), "x"))

/-- A broker whose session registry is at the admission ceiling. -/
def demoB5 : Broker :=
  { cfg := { maxLines := 1, counters := [], highlights := [] }
    metaBuf := Msg.noticeRec ⟨""⟩
    ring := [none]
    head := 0
    capacity := 1
    clients := List.replicate 5 mkClient }

/-- A session whose 512-slot outbound queue is completely full. -/
def demoFullCli : Client :=
  { ch := List.replicate 512 (recO 0), qcap := 512 }

/-! ### Interleaving model for append vs. registration-plus-replay

`appendWithWhen` takes the ring lock twice — once in `enqueue`, once in
`broadcast` — and `handleNewClient` registers the session (one critical
section), sends the meta (a channel operation), and replays (another
critical section).  Each of these five atomic steps is one event; a run
interleaves the `2K` append steps (in program order) with the session's
three steps (in program order). -/

/-- One atomic event of the interleaved execution. -/
inductive Ev where
  | enq (i : Nat)
  | bcast (i : Nat)
  | reg
  | metaS
  | replayS
deriving DecidableEq, Repr

/-- The `j`-th atomic step of the append sequence: append `i` performs
`enq i` at step `2i` and `bcast i` at step `2i+1`. -/
def evAt (j : Nat) : Ev :=
  if j % 2 = 0 then Ev.enq (j / 2) else Ev.bcast (j / 2)

/-- Effect of one event on the broker state (each event is performed
while `ringMu` is held, except `metaS`, which is a pure channel push and
atomic as well). -/
def evStep (b : Broker) : Ev → Broker
  | Ev.enq i => b.enqueue (recO i)
  | Ev.bcast i => b.broadcast (recO i)
  | Ev.reg => b.handleNewClient.1
  | Ev.metaS => { b with clients := b.clients.map (fun c => (safeSend c b.metaBuf).1) }
  | Ev.replayS => { b with clients := b.clients.map (fun c => b.replay c) }

/-- The interleaving that runs append steps `0..p-1`, then registration,
then steps `p..m-1`, then the meta send, then steps `m..q-1`, then the
replay, then steps `q..2K-1` (for `p ≤ m ≤ q ≤ 2K`). -/
def sched (K p m q : Nat) : List Ev :=
  (List.range' 0 p).map evAt ++ [Ev.reg]
    ++ (List.range' p (m - p)).map evAt ++ [Ev.metaS]
    ++ (List.range' m (q - m)).map evAt ++ [Ev.replayS]
    ++ (List.range' q (2 * K - q)).map evAt

/-- Execute an interleaving from a fresh broker. -/
def runSched (cfg : Config) (K p m q : Nat) : Broker :=
  (sched K p m q).foldl evStep (NewBroker cfg)

/-- The outbound queue of the single tracked session, if registered. -/
def sessionQueue (b : Broker) : List Msg :=
  match b.clients with
  | [c] => c.ch
  | _ => []

/-- Plain ring insertion of a record list, in order (the History-Buffer
part of a run of appends). -/
def ringAppendAll (b : Broker) (ms : List Msg) : Broker :=
  ms.foldl Broker.enqueue b

/-- A contiguous run of ring insertions of the canonical records
`recO s, recO (s+1), …, recO (s+n-1)`. -/
def enqSeg (b : Broker) (s n : Nat) : Broker :=
  ringAppendAll b ((List.range' s n).map recO)

/-- Replace the session registry of a broker state (used to write
interleaving states in a uniform, first-order form). -/
def withClients (b : Broker) (cs : List Client) : Broker :=
  { b with clients := cs }

/-! ### Attach-side reader loop (`Attach` in the UI file)

The loop reads newline-delimited records; what matters to the claims is
its control flow, so the two `json.Unmarshal` calls are embedded by
their outcomes: `malformed` (the type peek fails), a recognised type
with the payload parse outcome, or an unrecognised type discriminator. -/

/-- Parse outcome of one incoming newline-delimited record. -/
inductive InRec where
  | malformed
  | metaIn (p : Option Meta)
  | lineIn (p : Option Line)
  | noticeIn (p : Option Notice)
  | otherType (t : String)
deriving DecidableEq, Repr

/-- One read from the transport: an error, or a record. -/
inductive ReadEv where
  | rerr
  | rrec (r : InRec)
deriving DecidableEq, Repr

/-- Actions the reader goroutine performs on the local UI. -/
inductive UIAct where
  | applyConfig (c : Config)
  | appendLine (l : Line)
  | appendNotice (text : String)
  | exitUI (code : Nat)
deriving DecidableEq, Repr

/-- The default disconnect notice used when no custom message is set. -/
def disconnectText : String := "[notice] disconnected from server"

/-- The `switch typ.Type` body: UI actions for one incoming record.  A
failed type peek, a failed payload parse, or an unknown discriminator
produces no action. -/
def handleRec : InRec → List UIAct
  | InRec.malformed => []
  | InRec.metaIn none => []
  | InRec.metaIn (some mm) =>
    [UIAct.applyConfig { maxLines := mm.maxLines
                         counters := mm.counters
                         highlights := mm.highlights }]
  | InRec.lineIn none => []
  | InRec.lineIn (some l) => [UIAct.appendLine l]
  | InRec.noticeIn none => []
  | InRec.noticeIn (some n) => [UIAct.appendNotice n.text]
  | InRec.otherType _ => []

/-- The reader loop over a stream of reads: a read error appends the
disconnect notice, exits the UI with code 1 and stops; a record is
handled (possibly as a no-op) and the loop continues. -/
def attachLoop : List ReadEv → List UIAct
  | [] => []
  | ReadEv.rerr :: _ => [UIAct.appendNotice disconnectText, UIAct.exitUI 1]
  | ReadEv.rrec r :: rest => handleRec r ++ attachLoop rest

/-! ## Basic construction lemmas -/

lemma newBroker_capacity (cfg : Config) :
    (NewBroker cfg).capacity = (normCfg cfg).EffectiveMaxLines.toNat := rfl

lemma newBroker_metaBuf (cfg : Config) :
    (NewBroker cfg).metaBuf = Msg.metaRec (MakeMeta (normCfg cfg)) := rfl

lemma normCfg_eff (cfg : Config) :
    (normCfg cfg).EffectiveMaxLines
      = if 0 < cfg.maxLines then cfg.maxLines else 10000 := by
  unfold normCfg Config.EffectiveMaxLines DefaultMaxLines
  by_cases h : cfg.maxLines ≤ 0
  · rw [if_pos h]
    dsimp only
    split_ifs <;> omega
  · rw [if_neg h]
    split_ifs <;> omega

lemma normCfg_counters (cfg : Config) :
    (normCfg cfg).counters = cfg.counters := by
  unfold normCfg; split_ifs <;> rfl

lemma normCfg_highlights (cfg : Config) :
    (normCfg cfg).highlights = cfg.highlights := by
  unfold normCfg; split_ifs <;> rfl

lemma normCfg_eff_nonneg (cfg : Config) :
    0 ≤ (normCfg cfg).EffectiveMaxLines := by
  rw [normCfg_eff]; split_ifs <;> omega

lemma normCfg_eff_pos (cfg : Config) :
    0 < (normCfg cfg).EffectiveMaxLines := by
  rw [normCfg_eff]; split_ifs <;> omega

/-! ## Ring-buffer window machinery -/

/-- Well-formedness of the ring state: the backing array has exactly
`capacity` slots and the cursor is in range.  `NewBroker` establishes it
and every operation preserves it. -/
def RingOk (b : Broker) : Prop :=
  b.ring.length = b.capacity ∧ b.head < b.capacity

lemma RingOk.cap_pos {b : Broker} (h : RingOk b) : 0 < b.capacity :=
  lt_of_le_of_lt (Nat.zero_le _) h.2

lemma ringOk_enqueue {b : Broker} (h : RingOk b) (m : Msg) :
    RingOk (b.enqueue m) := by
  refine ⟨?_, ?_⟩
  · simp [Broker.enqueue, h.1]
  · exact Nat.mod_lt _ h.cap_pos

lemma window_length (b : Broker) : b.window.length = b.capacity := by
  simp [Broker.window]

lemma window_getElem? (b : Broker) {i : Nat} (hi : i < b.capacity) :
    b.window[i]? = some (b.ring.getD ((b.head + i) % b.capacity) none) := by
  simp [Broker.window, List.getElem?_map, List.getElem?_range hi]

lemma window_getElem?_none (b : Broker) {i : Nat} (hi : b.capacity ≤ i) :
    b.window[i]? = none :=
  List.getElem?_eq_none (by simpa [window_length] using hi)

/-- One `enqueue` slides the replay window left by one slot and writes the
new record at its end. -/
lemma window_enqueue {b : Broker} (hok : RingOk b) (m : Msg) :
    (b.enqueue m).window = b.window.drop 1 ++ [some m] := by
  obtain ⟨hlen, hhead⟩ := hok
  have hC : 0 < b.capacity := lt_of_le_of_lt (Nat.zero_le _) hhead
  have hdlen : (b.window.drop 1).length = b.capacity - 1 := by
    simp [window_length]
  apply List.ext_getElem?
  intro i
  by_cases hi : i < b.capacity
  · rw [window_getElem? _ (show i < (b.enqueue m).capacity from hi)]
    by_cases hlast : i = b.capacity - 1
    · subst hlast
      have hidx : ((b.enqueue m).head + (b.capacity - 1)) % (b.enqueue m).capacity
          = b.head := by
        show ((b.head + 1) % b.capacity + (b.capacity - 1)) % b.capacity = b.head
        rw [Nat.mod_add_mod]
        have h1 : b.head + 1 + (b.capacity - 1) = b.head + b.capacity := by omega
        rw [h1, Nat.add_mod_right, Nat.mod_eq_of_lt hhead]
      rw [hidx]
      have hset : ((b.ring.set b.head (some m)).getD b.head none) = some m := by
        rw [List.getD_eq_getElem?_getD,
          List.getElem?_set_self (by rw [hlen]; exact hhead)]
        rfl
      have hR : (b.window.drop 1 ++ [some m])[b.capacity - 1]?
          = some (some m) := by
        rw [List.getElem?_append_right (le_of_eq hdlen), hdlen,
          Nat.sub_self]
        rfl
      rw [hR]
      exact congrArg some hset
    · have hi' : i < b.capacity - 1 := by omega
      have hidx : ((b.enqueue m).head + i) % (b.enqueue m).capacity
          = (b.head + (i + 1)) % b.capacity := by
        show ((b.head + 1) % b.capacity + i) % b.capacity = _
        rw [Nat.mod_add_mod]
        congr 1
        omega
      have hne : (b.head + (i + 1)) % b.capacity ≠ b.head := by
        intro heq
        rcases lt_or_ge (b.head + (i + 1)) b.capacity with hc | hc
        · rw [Nat.mod_eq_of_lt hc] at heq; omega
        · rw [Nat.mod_eq_sub_mod hc,
            Nat.mod_eq_of_lt (by omega)] at heq
          omega
      have hL : (b.enqueue m).ring.getD (((b.enqueue m).head + i)
            % (b.enqueue m).capacity) none
          = b.ring.getD ((b.head + (i + 1)) % b.capacity) none := by
        show (b.ring.set b.head (some m)).getD _ none = _
        rw [hidx, List.getD_eq_getElem?_getD,
          List.getElem?_set_ne (fun h => hne h.symm),
          ← List.getD_eq_getElem?_getD]
      have hR : (b.window.drop 1 ++ [some m])[i]? = b.window[i + 1]? := by
        rw [@List.getElem?_append _ (b.window.drop 1) [some m] i,
          if_pos (by rw [hdlen]; omega), List.getElem?_drop]
        congr 1
        omega
      rw [hL, hR, window_getElem? _ (by omega)]
  · have hcap : (b.enqueue m).capacity = b.capacity := rfl
    rw [window_getElem?_none _ (by rw [hcap]; omega)]
    refine (List.getElem?_eq_none ?_).symm
    simp only [List.length_append, hdlen, List.length_cons, List.length_nil]
    omega

lemma ringAppendAll_nil (b : Broker) : ringAppendAll b [] = b := rfl

lemma ringAppendAll_cons (b : Broker) (m : Msg) (t : List Msg) :
    ringAppendAll b (m :: t) = ringAppendAll (b.enqueue m) t := rfl

lemma ringOk_ringAppendAll {b : Broker} (hok : RingOk b) (ms : List Msg) :
    RingOk (ringAppendAll b ms) := by
  induction ms generalizing b with
  | nil => exact hok
  | cons m t ih => exact ih (ringOk_enqueue hok m)

lemma ringAppendAll_clients (b : Broker) (ms : List Msg) :
    (ringAppendAll b ms).clients = b.clients := by
  induction ms generalizing b with
  | nil => rfl
  | cons m t ih => rw [ringAppendAll_cons, ih]; rfl

lemma ringAppendAll_metaBuf (b : Broker) (ms : List Msg) :
    (ringAppendAll b ms).metaBuf = b.metaBuf := by
  induction ms generalizing b with
  | nil => rfl
  | cons m t ih => rw [ringAppendAll_cons, ih]; rfl

lemma ringAppendAll_capacity (b : Broker) (ms : List Msg) :
    (ringAppendAll b ms).capacity = b.capacity := by
  induction ms generalizing b with
  | nil => rfl
  | cons m t ih => rw [ringAppendAll_cons, ih]; rfl

/-- The window after inserting `ms` into a well-formed ring: the old
window with the new records appended, with the oldest `ms.length`
entries slid off. -/
lemma window_ringAppendAll {b : Broker} (hok : RingOk b) (ms : List Msg) :
    (ringAppendAll b ms).window = (b.window ++ ms.map some).drop ms.length := by
  induction ms generalizing b with
  | nil => simp [ringAppendAll_nil]
  | cons m t ih =>
    rw [ringAppendAll_cons, ih (ringOk_enqueue hok m), window_enqueue hok m]
    have hw : b.window.length = b.capacity := window_length b
    have hpos : 0 < b.window.length := by rw [hw]; exact hok.cap_pos
    obtain ⟨w, W, hW⟩ : ∃ w W, b.window = w :: W := by
      cases hws : b.window with
      | nil => rw [hws] at hpos; simp at hpos
      | cons w W => exact ⟨w, W, rfl⟩
    rw [hW]
    simp [List.drop_succ_cons]

lemma newBroker_ring (cfg : Config) :
    (NewBroker cfg).ring = List.replicate (NewBroker cfg).capacity none := rfl

lemma newBroker_clients (cfg : Config) : (NewBroker cfg).clients = [] := rfl

lemma newBroker_capacity_pos (cfg : Config) : 0 < (NewBroker cfg).capacity := by
  rw [newBroker_capacity]
  have := normCfg_eff_pos cfg
  omega

lemma ringOk_newBroker (cfg : Config) : RingOk (NewBroker cfg) := by
  refine ⟨?_, ?_⟩
  · rw [newBroker_ring, List.length_replicate]
  · exact newBroker_capacity_pos cfg

lemma window_newBroker (cfg : Config) :
    (NewBroker cfg).window = List.replicate (NewBroker cfg).capacity none := by
  apply List.ext_getElem?
  intro i
  by_cases hi : i < (NewBroker cfg).capacity
  · rw [window_getElem? _ hi, List.getElem?_replicate, if_pos hi]
    have : (NewBroker cfg).ring.getD
        (((NewBroker cfg).head + i) % (NewBroker cfg).capacity) none = none := by
      rw [newBroker_ring, List.getD_eq_getElem?_getD, List.getElem?_replicate]
      split <;> rfl
    rw [this]
  · rw [window_getElem?_none _ (le_of_not_lt hi), List.getElem?_replicate,
      if_neg hi]

lemma broadcast_of_no_clients {b : Broker} (m : Msg) (h : b.clients = []) :
    b.broadcast m = b := by
  cases b with
  | mk cfg mb ring hd cap cl =>
    change cl = [] at h
    subst h
    rfl

lemma appendWithWhen_of_no_clients {b : Broker} (h : b.clients = [])
    (w : Int) (t : String) :
    b.appendWithWhen w t = b.enqueue (encodeLine w t) := by
  show (b.enqueue (encodeLine w t)).broadcast (encodeLine w t)
      = b.enqueue (encodeLine w t)
  exact broadcast_of_no_clients _ (show (b.enqueue _).clients = [] from h)

lemma appendAll_of_no_clients (xs : List (Int × String)) :
    ∀ b : Broker, b.clients = [] → appendAll b xs = ringAppendAll b (encodeAll xs) := by
  induction xs with
  | nil => intro b _; rfl
  | cons x t ih =>
    intro b h
    show appendAll (b.appendWithWhen x.1 x.2) t = _
    rw [appendWithWhen_of_no_clients h]
    exact ih _ (show (b.enqueue _).clients = [] from h)

lemma filterMap_id_replicate_none (n : Nat) :
    (List.replicate n (none : Option Msg)).filterMap id = [] := by
  induction n with
  | zero => rfl
  | succ k ih => simp [List.replicate_succ]

lemma replayList_ringAppendAll_fresh (cfg : Config) (ms : List Msg) :
    (ringAppendAll (NewBroker cfg) ms).replayList
      = ms.drop (ms.length - (NewBroker cfg).capacity) := by
  show ((ringAppendAll (NewBroker cfg) ms).window).filterMap id = _
  rw [window_ringAppendAll (ringOk_newBroker cfg), window_newBroker,
    List.drop_append_eq_append_drop, List.drop_replicate, List.length_replicate,
    List.filterMap_append, filterMap_id_replicate_none, ← List.map_drop,
    List.filterMap_map]
  simp [Function.comp, List.filterMap_some]

lemma encodeAll_length (xs : List (Int × String)) :
    (encodeAll xs).length = xs.length := by
  simp [encodeAll]

lemma replayList_brokerAfterAppends (cfg : Config) (xs : List (Int × String)) :
    (brokerAfterAppends cfg xs).replayList
      = (encodeAll xs).drop (xs.length - (NewBroker cfg).capacity) := by
  show (appendAll (NewBroker cfg) xs).replayList = _
  rw [appendAll_of_no_clients xs _ rfl, replayList_ringAppendAll_fresh,
    encodeAll_length]

/-! ## safeSend folding (meta handshake + replay into the queue) -/

lemma safeSend_fst_qcap (cli : Client) (m : Msg) :
    ((safeSend cli m).1).qcap = cli.qcap := by
  unfold safeSend
  split <;> rfl

lemma safeSend_snd (cli : Client) (m : Msg) : (safeSend cli m).2 = none := by
  unfold safeSend
  split <;> rfl

/-- Folding `safeSend` over a record list: the queue behaves as an
unbounded append followed by keeping only the newest `qcap` entries. -/
lemma foldl_safeSend_ch (ms : List Msg) :
    ∀ cli : Client, cli.ch.length ≤ cli.qcap → 0 < cli.qcap →
    (ms.foldl (fun c m => (safeSend c m).1) cli).ch
      = (cli.ch ++ ms).drop (cli.ch.length + ms.length - cli.qcap) := by
  induction ms with
  | nil =>
    intro cli h _
    simp only [List.foldl_nil, List.append_nil, List.length_nil, Nat.add_zero]
    rw [Nat.sub_eq_zero_of_le h, List.drop_zero]
  | cons m t ih =>
    intro cli h hq
    show (t.foldl (fun c m => (safeSend c m).1) ((safeSend cli m).1)).ch = _
    by_cases hlt : cli.ch.length < cli.qcap
    · have hstep : (safeSend cli m).1 = { cli with ch := cli.ch ++ [m] } := by
        unfold safeSend
        rw [if_pos hlt]
      rw [hstep,
        ih { cli with ch := cli.ch ++ [m] } (by simp; omega) hq]
      simp only [List.append_assoc, List.singleton_append, List.length_append,
        List.length_cons, List.length_nil]
      congr 1
      omega
    · have hfull : cli.ch.length = cli.qcap := by omega
      have hstep : (safeSend cli m).1 = { cli with ch := cli.ch.tail ++ [m] } := by
        unfold safeSend
        rw [if_neg hlt]
      obtain ⟨x, tl, hx⟩ : ∃ x tl, cli.ch = x :: tl := by
        cases hc : cli.ch with
        | nil => rw [hc] at hfull; simp at hfull; omega
        | cons x tl => exact ⟨x, tl, rfl⟩
      have hfull' : tl.length + 1 = cli.qcap := by
        rw [hx] at hfull
        simp at hfull
        omega
      rw [hstep,
        ih { cli with ch := cli.ch.tail ++ [m] } (by rw [hx]; simp; omega) hq]
      simp only [hx, List.tail_cons, List.append_assoc, List.singleton_append,
        List.length_append, List.length_cons, List.length_nil, List.cons_append]
      have h1 : tl.length + 1 + t.length - cli.qcap = t.length := by omega
      have h2 : tl.length + 1 + (t.length + 1) - cli.qcap = t.length + 1 := by omega
      rw [h1, h2, List.drop_succ_cons]
      simp

end PlaneConsole

namespace PlaneConsole

/-! ## C7: effective capacity and meta max_lines -/

/-- C7 — For every configuration, the History Buffer capacity equals the
configured max lines when that value is positive and 10000 otherwise,
and the meta envelope's `max_lines` field equals this effective
capacity. -/
theorem c7_capacity_and_meta_max_lines (cfg : Config) :
    ((NewBroker cfg).capacity
        = (if 0 < cfg.maxLines then cfg.maxLines else 10000).toNat)
    ∧ (NewBroker cfg).metaBuf
        = Msg.metaRec { maxLines := ((NewBroker cfg).capacity : Int)
                        counters := cfg.counters
                        highlights := cfg.highlights } := by
  refine ⟨by rw [newBroker_capacity, normCfg_eff], ?_⟩
  rw [newBroker_metaBuf, newBroker_capacity,
    Int.toNat_of_nonneg (normCfg_eff_nonneg cfg)]
  unfold MakeMeta
  rw [normCfg_counters, normCfg_highlights]

/-! ## C8: level derivation -/

/-- C8 — For every string `s`, `LevelOf s` is `"error"` exactly when `s`
starts with the literal `"ERROR: "` (its first 7 characters are those of
the pattern), and `"info"` otherwise; in particular on the three spec
examples. -/
theorem c8_level_of_error_iff_error_prefix (s : String) :
    LevelOf s = (if s.data.take 7 = "ERROR: ".data then "error" else "info")
    ∧ LevelOf "ERROR: disk full" = "error"
    ∧ LevelOf "disk full" = "info"
    ∧ LevelOf "" = "info" := by
  refine ⟨rfl, by decide, by decide, by decide⟩

/-! ## C1: ring invariant and fresh-session replay -/

lemma sessionInit_eq (b : Broker) (cli : Client) :
    b.sessionInit cli = some (b.replay ((safeSend cli b.metaBuf).1)) := by
  unfold Broker.sessionInit
  rcases hres : safeSend cli b.metaBuf with ⟨c1, e⟩
  have he : e = none := by
    have hs := safeSend_snd cli b.metaBuf
    rw [hres] at hs
    exact hs
  subst he
  rfl

/-- What a fresh session's queue holds once `handleNewClient`'s goroutine
reaches its drain loop: the meta followed by the replayed history, with
everything but the newest 512 entries evicted by `safeSend`. -/
lemma connectedQueue_eq {b : Broker} (h : b.clients = []) :
    connectedQueue b
      = (b.metaBuf :: b.replayList).drop (1 + b.replayList.length - 512) := by
  have hadm : b.handleNewClient
      = ({ b with clients := b.clients ++ [mkClient] }, some mkClient) := by
    unfold Broker.handleNewClient
    rw [if_neg]
    rw [h]
    simp
  simp only [connectedQueue, hadm]
  rw [sessionInit_eq]
  have hcli1 : (safeSend mkClient
        ({ b with clients := b.clients ++ [mkClient] } : Broker).metaBuf).1
      = { ch := [b.metaBuf], qcap := 512 } := rfl
  rw [hcli1]
  show (List.foldl (fun c m => (safeSend c m).1)
      { ch := [b.metaBuf], qcap := 512 } b.replayList).ch = _
  rw [foldl_safeSend_ch b.replayList { ch := [b.metaBuf], qcap := 512 }
    (by simp) (by norm_num)]
  simp [List.singleton_append]

lemma brokerAfterAppends_clients (cfg : Config) (xs : List (Int × String)) :
    (brokerAfterAppends cfg xs).clients = [] := by
  show (appendAll (NewBroker cfg) xs).clients = []
  rw [appendAll_of_no_clients xs _ (newBroker_clients cfg), ringAppendAll_clients]
  exact newBroker_clients cfg

lemma brokerAfterAppends_metaBuf (cfg : Config) (xs : List (Int × String)) :
    (brokerAfterAppends cfg xs).metaBuf = (NewBroker cfg).metaBuf := by
  show (appendAll (NewBroker cfg) xs).metaBuf = _
  rw [appendAll_of_no_clients xs _ (newBroker_clients cfg), ringAppendAll_metaBuf]

/-- The fresh session's queue at the start of its drain loop, after `K`
appends: the meta followed by the last `min(K, C)` records, truncated to
the newest 512 entries. -/
lemma connectedQueue_after_appends (cfg : Config) (xs : List (Int × String)) :
    connectedQueue (brokerAfterAppends cfg xs)
      = ((NewBroker cfg).metaBuf
            :: (encodeAll xs).drop (xs.length - (NewBroker cfg).capacity)).drop
          (1 + min xs.length (NewBroker cfg).capacity - 512) := by
  rw [connectedQueue_eq (brokerAfterAppends_clients cfg xs),
    brokerAfterAppends_metaBuf, replayList_brokerAfterAppends]
  have hlen : ((encodeAll xs).drop (xs.length - (NewBroker cfg).capacity)).length
      = min xs.length (NewBroker cfg).capacity := by
    rw [List.length_drop, encodeAll_length]
    omega
  rw [hlen]

/-- C1 (amended) — After `K` appends into capacity `C`, the replay scan
sends exactly the last `min(K, C)` records in original append order, and
the fresh session's queue at the start of its drain loop is the meta
followed by those records, truncated to the newest 512 entries (the
queue has capacity 512, nothing consumes it before replay finishes, and
`safeSend` evicts the front on overflow).  The claim's unconditional
"yields exactly the last min(K,C) records" holds exactly when
`min(K,C) + 1 ≤ 512`. -/
theorem c1_fresh_session_queue_after_replay (cfg : Config)
    (xs : List (Int × String)) :
    (brokerAfterAppends cfg xs).replayList
        = (encodeAll xs).drop (xs.length - (NewBroker cfg).capacity)
    ∧ connectedQueue (brokerAfterAppends cfg xs)
        = ((NewBroker cfg).metaBuf
              :: (encodeAll xs).drop (xs.length - (NewBroker cfg).capacity)).drop
            (1 + min xs.length (NewBroker cfg).capacity - 512) :=
  ⟨replayList_brokerAfterAppends cfg xs, connectedQueue_after_appends cfg xs⟩

lemma encodeAll_demoXs (K : Nat) :
    encodeAll (demoXs K) = (List.range K).map recO := by
  unfold encodeAll demoXs recO
  rw [List.map_map]
  rfl

lemma recO_succ_ne_zero (a : Nat) : recO (a + 1) ≠ recO 0 := by
  intro hcontra
  unfold recO encodeLine at hcontra
  simp at hcontra
  omega

lemma count_recO_zero_in_shift (n : Nat) :
    ((List.range n).map Nat.succ |>.map recO).count (recO 0) = 0 := by
  rw [List.count_eq_zero]
  intro hmem
  rw [List.mem_map] at hmem
  obtain ⟨a, ha, heq⟩ := hmem
  rw [List.mem_map] at ha
  obtain ⟨j, _, hj⟩ := ha
  subst hj
  exact recO_succ_ne_zero j heq

/-- C1 (counterexample) — With capacity 513 and 513 appended records,
`min(K, C) = 513`: the claim says the fresh session receives all 513
records, but the first appended record (present exactly once among the
encoded appends) never reaches the session's queue — the meta plus 513
replayed records overflow the 512-slot queue and `safeSend` evicts the
oldest entries. -/
theorem c1_cex_first_record_lost :
    (encodeAll (demoXs 513)).count (recO 0) = 1
    ∧ min (demoXs 513).length (NewBroker ⟨513, [], []⟩).capacity = 513
    ∧ (connectedQueue (brokerAfterAppends ⟨513, [], []⟩ (demoXs 513))).count
        (recO 0) = 0 := by
  have hrange : List.range 513 = 0 :: List.map Nat.succ (List.range 512) :=
    List.range_succ_eq_map 512
  have hE : encodeAll (demoXs 513)
      = recO 0 :: ((List.range 512).map Nat.succ |>.map recO) := by
    rw [encodeAll_demoXs, hrange]
    simp [List.map_map]
  have hcap : (NewBroker ⟨513, [], []⟩ : Broker).capacity = 513 := rfl
  have hlenxs : (demoXs 513).length = 513 := by
    unfold demoXs
    rw [List.length_map, List.length_range]
  refine ⟨?_, ?_, ?_⟩
  · rw [hE, List.count_cons_self, count_recO_zero_in_shift]
  · rw [hcap, hlenxs]
    simp
  · have hq := connectedQueue_after_appends ⟨513, [], []⟩ (demoXs 513)
    rw [hcap, hlenxs] at hq
    have h0 : (513 : Nat) - 513 = 0 := rfl
    have h2 : 1 + min 513 513 - 512 = 2 := by norm_num
    rw [h0, h2, List.drop_zero] at hq
    rw [hq, hE]
    show ((List.range 512).map Nat.succ |>.map recO).count (recO 0) = 0
    exact count_recO_zero_in_shift 512

/-! ## C4: the meta handshake -/

lemma encodeAll_mem_lineRec {xs : List (Int × String)} {m : Msg}
    (hm : m ∈ encodeAll xs) : ∃ l, m = Msg.lineRec l := by
  unfold encodeAll at hm
  rw [List.mem_map] at hm
  obtain ⟨p, _, hp⟩ := hm
  exact ⟨{ tsUs := p.1, text := p.2, level := LevelOf p.2 }, hp.symm⟩

lemma count_metaBuf_encodeAll (cfg : Config) (xs : List (Int × String)) :
    (encodeAll xs).count ((NewBroker cfg).metaBuf) = 0 := by
  rw [List.count_eq_zero]
  intro hm
  obtain ⟨l, hl⟩ := encodeAll_mem_lineRec hm
  rw [newBroker_metaBuf] at hl
  simp at hl

/-- C4 (amended) — As long as the replayed history fits under the 512
queue slots together with the meta (`min(K,C) + 1 ≤ 512`), an admitted
session's queue starts with the MetaEnvelope, contains it exactly once,
and every later entry is a line record.  (For `min(K,C) + 1 > 512`,
`safeSend` during replay evicts the meta from the queue front — that is
the counterexample theorem.) -/
theorem c4_meta_first_when_history_fits (cfg : Config)
    (xs : List (Int × String))
    (h : min xs.length (NewBroker cfg).capacity + 1 ≤ 512) :
    connectedQueue (brokerAfterAppends cfg xs)
        = (NewBroker cfg).metaBuf
            :: (encodeAll xs).drop (xs.length - (NewBroker cfg).capacity)
    ∧ (connectedQueue (brokerAfterAppends cfg xs)).head?
        = some ((NewBroker cfg).metaBuf)
    ∧ (connectedQueue (brokerAfterAppends cfg xs)).count
        ((NewBroker cfg).metaBuf) = 1
    ∧ ∀ m ∈ (connectedQueue (brokerAfterAppends cfg xs)).tail,
        ∃ l, m = Msg.lineRec l := by
  have hq := connectedQueue_after_appends cfg xs
  have hz : 1 + min xs.length (NewBroker cfg).capacity - 512 = 0 := by omega
  rw [hz, List.drop_zero] at hq
  refine ⟨hq, ?_, ?_, ?_⟩
  · rw [hq]
    rfl
  · rw [hq, List.count_cons_self]
    have hc : ((encodeAll xs).drop
        (xs.length - (NewBroker cfg).capacity)).count ((NewBroker cfg).metaBuf)
        = 0 := by
      have hle := (List.drop_sublist (xs.length - (NewBroker cfg).capacity)
        (encodeAll xs)).count_le ((NewBroker cfg).metaBuf)
      rw [count_metaBuf_encodeAll] at hle
      omega
    rw [hc]
  · rw [hq]
    intro m hm
    rw [List.tail_cons] at hm
    exact encodeAll_mem_lineRec (List.mem_of_mem_drop hm)

/-- C4 witness: one append into capacity 1; the session's first record
is the meta. -/
theorem c4_meta_first_witness :
    (connectedQueue (brokerAfterAppends ⟨1, [], []⟩ [((5 : Int), "a")])).head?
      = some ((NewBroker ⟨1, [], []⟩ : Broker).metaBuf) :=
  (c4_meta_first_when_history_fits ⟨1, [], []⟩ [((5 : Int), "a")]
    (by decide)).2.1

/-- C4 (counterexample) — With capacity 512 and 512 appended records the
meta is pushed first but then evicted during replay: the first record
the session receives is the oldest replayed line, not the meta, and the
meta never reaches the session at all. -/
theorem c4_cex_meta_evicted :
    (connectedQueue (brokerAfterAppends ⟨512, [], []⟩ (demoXs 512))).head?
        = some (recO 0)
    ∧ (connectedQueue (brokerAfterAppends ⟨512, [], []⟩ (demoXs 512))).count
        ((NewBroker ⟨512, [], []⟩ : Broker).metaBuf) = 0
    ∧ (NewBroker ⟨512, [], []⟩ : Broker).metaBuf ≠ recO 0 := by
  have hq := connectedQueue_after_appends ⟨512, [], []⟩ (demoXs 512)
  have hcap : (NewBroker ⟨512, [], []⟩ : Broker).capacity = 512 := rfl
  have hlenxs : (demoXs 512).length = 512 := by
    unfold demoXs
    rw [List.length_map, List.length_range]
  rw [hcap, hlenxs] at hq
  have h0 : (512 : Nat) - 512 = 0 := rfl
  have h1 : 1 + min 512 512 - 512 = 1 := by norm_num
  rw [h0, h1, List.drop_zero] at hq
  have hE : encodeAll (demoXs 512)
      = recO 0 :: ((List.range 511).map Nat.succ |>.map recO) := by
    rw [encodeAll_demoXs, List.range_succ_eq_map 511]
    simp [List.map_map]
  rw [hE] at hq
  have hqueue : connectedQueue (brokerAfterAppends ⟨512, [], []⟩ (demoXs 512))
      = recO 0 :: ((List.range 511).map Nat.succ |>.map recO) := by
    rw [hq]
    rfl
  refine ⟨by rw [hqueue]; rfl, ?_, ?_⟩
  · rw [hqueue, ← hE]
    exact count_metaBuf_encodeAll ⟨512, [], []⟩ (demoXs 512)
  · rw [newBroker_metaBuf]
    simp [recO, encodeLine]

/-! ## C6: Append with no sessions registered -/

/-- C6 — `Append` is total (the embedding is a function; the Go code
swallows the impossible encode error), and with no sessions registered
it changes no session state, still writes the encoded record at `head`,
advances the cursor mod capacity, and a later replay yields the record
as its newest entry. -/
theorem c6_append_no_sessions (b : Broker) (whenUs : Int) (text : String)
    (hcl : b.clients = []) (hok : RingOk b) :
    (b.appendWithWhen whenUs text).clients = []
    ∧ (b.appendWithWhen whenUs text).ring
        = b.ring.set b.head (some (encodeLine whenUs text))
    ∧ (b.appendWithWhen whenUs text).head = (b.head + 1) % b.capacity
    ∧ ((b.appendWithWhen whenUs text).replayList).getLast?
        = some (encodeLine whenUs text) := by
  rw [appendWithWhen_of_no_clients hcl]
  refine ⟨hcl, rfl, rfl, ?_⟩
  show ((b.enqueue (encodeLine whenUs text)).window.filterMap id).getLast? = _
  rw [window_enqueue hok, List.filterMap_append]
  have hone : ([some (encodeLine whenUs text)] : List (Option Msg)).filterMap id
      = [encodeLine whenUs text] := rfl
  rw [hone, List.getLast?_concat]

/-- C6 witness at a concrete broker: capacity 2, one append. -/
theorem c6_append_no_sessions_witness :
    ((NewBroker ⟨2, [], []⟩ : Broker).appendWithWhen 5 "hi").replayList.getLast?
      = some (encodeLine 5 "hi") :=
  (c6_append_no_sessions (NewBroker ⟨2, [], []⟩) 5 "hi"
    (newBroker_clients _) (ringOk_newBroker _)).2.2.2

/-! ## C5: admission ceiling -/

/-- C5 — The registry never exceeds 5 sessions: `handleNewClient`
preserves the bound (registering only below the ceiling), removal and
`Stop`'s clearing only shrink it, and a connection arriving at exactly 5
registered sessions is closed with the broker state unchanged and no
client object created — so nothing is ever pushed to it, not even the
meta. -/
theorem c5_admission_ceiling (b : Broker) (c : Client) :
    (b.clients.length ≤ 5 → (b.handleNewClient).1.clients.length ≤ 5)
    ∧ (b.clients.length ≤ 5 → (b.removeClient c).clients.length ≤ 5)
    ∧ (b.stopClients).clients.length = 0
    ∧ (b.clients.length = 5 → b.handleNewClient = (b, none)) := by
  refine ⟨?_, ?_, rfl, ?_⟩
  · intro h
    unfold Broker.handleNewClient
    by_cases hce : 5 ≤ b.clients.length
    · rw [if_pos hce]
      exact h
    · rw [if_neg hce]
      simp
      omega
  · intro h
    have hle : (b.clients.erase c).length ≤ b.clients.length :=
      (List.erase_sublist c b.clients).length_le
    show (b.clients.erase c).length ≤ 5
    omega
  · intro h
    unfold Broker.handleNewClient
    rw [if_pos (by omega)]

/-- C5 witness: at the ceiling (5 registered sessions) the connection is
rejected and the registry is untouched. -/
theorem c5_admission_ceiling_witness :
    (demoB5.handleNewClient).1.clients.length ≤ 5
    ∧ demoB5.handleNewClient = (demoB5, none) :=
  ⟨(c5_admission_ceiling demoB5 mkClient).1 (by decide),
   (c5_admission_ceiling demoB5 mkClient).2.2.2 (by decide)⟩

/-! ## C10: safeSend never fails -/

/-- C10 — `safeSend` returns a nil error on every client state (with
the program's queues, which have positive capacity): it pushes when
there is room, and otherwise evicts exactly one front entry (the queue
length is unchanged) and pushes.  Consequently the `handleNewClient`
error branch is dead and every admitted session proceeds to replay. -/
theorem c10_safeSend_total (b : Broker) (cli : Client) (m : Msg)
    (hq : 0 < cli.qcap) :
    (safeSend cli m).2 = none
    ∧ (cli.ch.length < cli.qcap → (safeSend cli m).1.ch = cli.ch ++ [m])
    ∧ (¬ cli.ch.length < cli.qcap →
        (safeSend cli m).1.ch = cli.ch.tail ++ [m]
        ∧ (safeSend cli m).1.ch.length = cli.ch.length)
    ∧ b.sessionInit cli = some (b.replay ((safeSend cli b.metaBuf).1)) := by
  refine ⟨safeSend_snd cli m, ?_, ?_, sessionInit_eq b cli⟩
  · intro hlt
    unfold safeSend
    rw [if_pos hlt]
  · intro hlt
    have hpos : 0 < cli.ch.length := by omega
    constructor
    · unfold safeSend
      rw [if_neg hlt]
    · unfold safeSend
      rw [if_neg hlt]
      show (cli.ch.tail ++ [m]).length = cli.ch.length
      rw [List.length_append, List.length_tail]
      simp only [List.length_cons, List.length_nil]
      omega

/-! ## C3: the lag (backpressure) policy -/

lemma popWhile_full {q : List Msg} {qcap : Nat} (h : q.length = qcap)
    (hq : 0 < qcap) : popWhile qcap q = (q.tail, 1) := by
  cases q with
  | nil =>
    simp at h
    omega
  | cons x t =>
    have ht : ¬ t.length = qcap := by
      simp at h
      omega
    have hpt : popWhile qcap t = (t, 0) := by
      cases t with
      | nil =>
        show ([], 0) = (([] : List Msg), 0)
        rfl
      | cons y u =>
        show (if (y :: u).length = qcap then _ else ((y :: u), 0)) = _
        rw [if_neg ht]
    show (if (x :: t).length = qcap then
        ((popWhile qcap t).1, (popWhile qcap t).2 + 1) else ((x :: t), 0))
      = (t, 1)
    rw [if_pos h, hpt]

/-- The full-queue path of `broadcast`: evict exactly one front entry,
push the record; the lag notice is then attempted with `trySend`, but
the queue is full again, so it is dropped. -/
lemma broadcastOne_full {cli : Client} (m : Msg)
    (h : cli.ch.length = cli.qcap) (hq : 0 < cli.qcap) :
    broadcastOne cli m = { cli with ch := cli.ch.tail ++ [m] } := by
  have h1 : trySend cli m = (cli, false) := by
    unfold trySend
    rw [if_neg (by omega)]
  have h2 : popWhile cli.qcap cli.ch = (cli.ch.tail, 1) := popWhile_full h hq
  have htail : cli.ch.tail.length = cli.qcap - 1 := by
    rw [List.length_tail, h]
  have h3 : trySend { cli with ch := cli.ch.tail } m
      = ({ cli with ch := cli.ch.tail ++ [m] }, true) := by
    unfold trySend
    rw [if_pos (by show cli.ch.tail.length < cli.qcap; omega)]
  have h4 : trySend { cli with ch := cli.ch.tail ++ [m] }
        (Msg.noticeRec ⟨laggedText 1⟩)
      = ({ cli with ch := cli.ch.tail ++ [m] }, false) := by
    unfold trySend
    rw [if_neg]
    show ¬ (cli.ch.tail ++ [m]).length < cli.qcap
    rw [List.length_append, htail]
    simp only [List.length_cons, List.length_nil]
    omega
  simp only [broadcastOne, h1, h2, h3, h4]
  norm_num

/-- C3 (amended) — When a broadcast finds a session's queue full, the
discard loop frees exactly one slot (each pop frees one, so the counted
discards are always 1), the new record is pushed, and the single lag
Notice `"[viewer lagged; dropped 1 lines]"` is then *attempted* with a
non-blocking `trySend` — but the queue is already full again, so the
attempt fails and no notice is ever added to the queue: the session is
not told about the loss (unless its drain task happened to consume
concurrently). -/
theorem c3_lag_discard_and_lost_notice (cli : Client) (m : Msg)
    (h : cli.ch.length = cli.qcap) (hq : 0 < cli.qcap) :
    broadcastOne cli m = { cli with ch := cli.ch.tail ++ [m] }
    ∧ (popWhile cli.qcap cli.ch).2 = 1
    ∧ ((∀ t, m ≠ Msg.noticeRec t) → ∀ t,
        ((broadcastOne cli m).ch.count (Msg.noticeRec t)
          ≤ cli.ch.count (Msg.noticeRec t))) := by
  refine ⟨broadcastOne_full m h hq, by rw [popWhile_full h hq], ?_⟩
  intro hm t
  rw [broadcastOne_full m h hq]
  show (cli.ch.tail ++ [m]).count (Msg.noticeRec t) ≤ _
  rw [List.count_append]
  have h1 : cli.ch.tail.count (Msg.noticeRec t) ≤ cli.ch.count (Msg.noticeRec t) :=
    (List.tail_sublist cli.ch).count_le _
  have h2 : ([m] : List Msg).count (Msg.noticeRec t) = 0 := by
    rw [List.count_eq_zero]
    simp
    exact fun hc => absurd hc.symm (hm t)
  omega

/-- C3 witness: a full 512-slot queue (the program's session capacity)
loses exactly one front entry and gains the broadcast record. -/
theorem c3_lag_discard_witness :
    broadcastOne demoFullCli (recO 1)
        = { demoFullCli with ch := demoFullCli.ch.tail ++ [recO 1] }
    ∧ (popWhile demoFullCli.qcap demoFullCli.ch).2 = 1 :=
  ⟨(c3_lag_discard_and_lost_notice demoFullCli (recO 1)
      (by show (List.replicate 512 (recO 0)).length = 512
          rw [List.length_replicate]) (by decide)).1,
   (c3_lag_discard_and_lost_notice demoFullCli (recO 1)
      (by show (List.replicate 512 (recO 0)).length = 512
          rw [List.length_replicate]) (by decide)).2.1⟩

/-- C3 (counterexample) — A session whose 512-slot queue is full: the
broadcast evicts one entry and pushes the record, but the resulting
queue contains no notice at all (in particular not the
`"[viewer lagged; dropped 1 lines]"` the claim promises), because the
non-blocking notice push finds the queue full again. -/
theorem c3_cex_notice_never_enqueued :
    broadcastOne demoFullCli (recO 1)
        = { ch := List.replicate 511 (recO 0) ++ [recO 1], qcap := 512 }
    ∧ ∀ t, (broadcastOne demoFullCli (recO 1)).ch.count (Msg.noticeRec t) = 0 := by
  have hfull : demoFullCli.ch.length = demoFullCli.qcap := by
    show (List.replicate 512 (recO 0)).length = 512
    rw [List.length_replicate]
  have hb := @broadcastOne_full demoFullCli (recO 1) hfull (by decide)
  have htail : demoFullCli.ch.tail = List.replicate 511 (recO 0) := rfl
  rw [htail] at hb
  refine ⟨hb, ?_⟩
  intro t
  rw [hb]
  show (List.replicate 511 (recO 0) ++ [recO 1]).count (Msg.noticeRec t) = 0
  rw [List.count_append, List.count_replicate]
  simp [recO, encodeLine]

/-! ## C9: attach-side skip of malformed records -/

lemma exit_not_in_handleRec (r : InRec) : UIAct.exitUI 1 ∉ handleRec r := by
  cases r with
  | malformed => simp [handleRec]
  | metaIn p => cases p <;> simp [handleRec]
  | lineIn p => cases p <;> simp [handleRec]
  | noticeIn p => cases p <;> simp [handleRec]
  | otherType t => simp [handleRec]

/-- C9 — A record that fails the JSON type peek, or whose type
discriminator is not meta/line/notice, contributes nothing and the read
loop continues with the next record (a record whose payload parse fails
is likewise skipped, via `handleRec`); the loop terminates — appending
the disconnect notice and exiting the UI — exactly on a transport read
error. -/
theorem c9_malformed_records_skipped :
    (∀ rest : List ReadEv,
        attachLoop (ReadEv.rrec InRec.malformed :: rest) = attachLoop rest)
    ∧ (∀ (t : String) (rest : List ReadEv),
        attachLoop (ReadEv.rrec (InRec.otherType t) :: rest) = attachLoop rest)
    ∧ (∀ (r : InRec) (rest : List ReadEv),
        attachLoop (ReadEv.rrec r :: rest) = handleRec r ++ attachLoop rest)
    ∧ (∀ rest : List ReadEv,
        attachLoop (ReadEv.rerr :: rest)
          = [UIAct.appendNotice disconnectText, UIAct.exitUI 1])
    ∧ (∀ evs : List ReadEv, UIAct.exitUI 1 ∈ attachLoop evs ↔ ReadEv.rerr ∈ evs) := by
  refine ⟨fun rest => rfl, fun t rest => rfl, fun r rest => rfl,
    fun rest => rfl, ?_⟩
  intro evs
  induction evs with
  | nil => simp [attachLoop]
  | cons e rest ih =>
    cases e with
    | rerr => simp [attachLoop]
    | rrec r =>
      have hstep : attachLoop (ReadEv.rrec r :: rest)
          = handleRec r ++ attachLoop rest := rfl
      rw [hstep]
      simp [List.mem_append, exit_not_in_handleRec r, ih]

/-! ## C2: interleaving appends with registration-plus-replay -/

lemma set_clients_self {b : Broker} {cs : List Client} (h : b.clients = cs) :
    ({ b with clients := cs } : Broker) = b := by
  cases b
  rw [← h]

lemma ringAppendAll_clients_update (b : Broker) (cs : List Client)
    (ms : List Msg) :
    ringAppendAll { b with clients := cs } ms
      = { ringAppendAll b ms with clients := cs } := by
  induction ms generalizing b with
  | nil => rfl
  | cons m t ih =>
    rw [ringAppendAll_cons, ringAppendAll_cons]
    have hstep : ({ b with clients := cs } : Broker).enqueue m
        = { b.enqueue m with clients := cs } := rfl
    rw [hstep, ih]

lemma enqSeg_zero (b : Broker) (s : Nat) : enqSeg b s 0 = b := rfl

lemma enqSeg_succ_left (b : Broker) (s n : Nat) :
    enqSeg b s (n + 1) = enqSeg (b.enqueue (recO s)) (s + 1) n := by
  unfold enqSeg
  rw [List.range'_succ]
  rfl

lemma enqSeg_append (b : Broker) (s n1 n2 : Nat) :
    enqSeg (enqSeg b s n1) (s + n1) n2 = enqSeg b s (n1 + n2) := by
  unfold enqSeg ringAppendAll
  rw [← List.foldl_append, ← List.map_append]
  have h := List.range'_append s n1 n2 1
  simp only [one_mul] at h
  rw [h, Nat.add_comm n1 n2]

lemma enqSeg_clients (b : Broker) (s n : Nat) :
    (enqSeg b s n).clients = b.clients := ringAppendAll_clients b _

lemma enqSeg_metaBuf (b : Broker) (s n : Nat) :
    (enqSeg b s n).metaBuf = b.metaBuf := ringAppendAll_metaBuf b _

lemma enqSeg_clients_update (b : Broker) (cs : List Client) (s n : Nat) :
    enqSeg { b with clients := cs } s n = { enqSeg b s n with clients := cs } :=
  ringAppendAll_clients_update b cs _

lemma safeSend_push {cli : Client} (m : Msg) (h : cli.ch.length < cli.qcap) :
    (safeSend cli m).1 = { cli with ch := cli.ch ++ [m] } := by
  unfold safeSend
  rw [if_pos h]

lemma broadcastOne_push {cli : Client} (m : Msg)
    (h : cli.ch.length < cli.qcap) :
    broadcastOne cli m = { cli with ch := cli.ch ++ [m] } := by
  have h1 : trySend cli m = ({ cli with ch := cli.ch ++ [m] }, true) := by
    unfold trySend
    rw [if_pos h]
  simp only [broadcastOne, h1]
  simp

lemma foldl_safeSend_qcap (ms : List Msg) :
    ∀ cli : Client,
    (ms.foldl (fun c m => (safeSend c m).1) cli).qcap = cli.qcap := by
  induction ms with
  | nil => intro cli; rfl
  | cons m t ih =>
    intro cli
    show (t.foldl (fun c m => (safeSend c m).1) ((safeSend cli m).1)).qcap = _
    rw [ih, safeSend_fst_qcap]

lemma replay_client_no_evict {b : Broker} {Q : List Msg}
    (h : Q.length + b.replayList.length ≤ 512) :
    b.replay { ch := Q, qcap := 512 }
      = { ch := Q ++ b.replayList, qcap := 512 } := by
  have hch := foldl_safeSend_ch b.replayList { ch := Q, qcap := 512 }
    (by show Q.length ≤ 512; omega) (by norm_num)
  have hz : ({ ch := Q, qcap := 512 } : Client).ch.length
      + b.replayList.length - ({ ch := Q, qcap := 512 } : Client).qcap = 0 := by
    show Q.length + b.replayList.length - 512 = 0
    omega
  rw [hz, List.drop_zero] at hch
  have hqc := foldl_safeSend_qcap b.replayList { ch := Q, qcap := 512 }
  show Client.mk
      (List.foldl (fun c m => (safeSend c m).1)
        { ch := Q, qcap := 512 } b.replayList).ch
      (List.foldl (fun c m => (safeSend c m).1)
        { ch := Q, qcap := 512 } b.replayList).qcap
    = { ch := Q ++ b.replayList, qcap := 512 }
  rw [hch, hqc]

lemma handleNewClient_fst_of_empty {b : Broker} (h : b.clients = []) :
    (b.handleNewClient).1 = { b with clients := [mkClient] } := by
  unfold Broker.handleNewClient
  rw [if_neg (by rw [h]; simp)]
  show { b with clients := b.clients ++ [mkClient] } = _
  rw [h]
  rfl

lemma evStep_reg (b0 : Broker) (h : b0.clients = []) :
    evStep b0 Ev.reg = withClients b0 [{ ch := [], qcap := 512 }] := by
  show (b0.handleNewClient).1 = _
  rw [handleNewClient_fst_of_empty h]
  rfl

lemma evStep_metaS (b0 : Broker) (Q : List Msg) (M : Msg)
    (hM : b0.metaBuf = M) (hlen : Q.length < 512) :
    evStep (withClients b0 [{ ch := Q, qcap := 512 }]) Ev.metaS
      = withClients b0 [{ ch := Q ++ [M], qcap := 512 }] := by
  show withClients b0 [(safeSend { ch := Q, qcap := 512 } b0.metaBuf).1] = _
  rw [safeSend_push _ (show ({ ch := Q, qcap := 512 } : Client).ch.length
      < ({ ch := Q, qcap := 512 } : Client).qcap from hlen), hM]

lemma evStep_replayS (b0 : Broker) (Q : List Msg) (R : List Msg)
    (hR : b0.replayList = R) (hlen : Q.length + R.length ≤ 512) :
    evStep (withClients b0 [{ ch := Q, qcap := 512 }]) Ev.replayS
      = withClients b0 [{ ch := Q ++ R, qcap := 512 }] := by
  have h := @replay_client_no_evict
    (withClients b0 [{ ch := Q, qcap := 512 }]) Q
    (show Q.length + b0.replayList.length ≤ 512 from by rw [hR]; exact hlen)
  show withClients b0
      [(withClients b0 [{ ch := Q, qcap := 512 }]).replay
        { ch := Q, qcap := 512 }] = _
  rw [h]
  show withClients b0 [{ ch := Q ++ b0.replayList, qcap := 512 }] = _
  rw [hR]

/-- Append steps `a..a+k-1` with no session registered: the broadcasts
are no-ops and the enqueues insert records `⌈a/2⌉..⌈(a+k)/2⌉-1`. -/
lemma fold_seg_unreg :
    ∀ (k a : Nat) (b : Broker), b.clients = [] →
    ((List.range' a k).map evAt).foldl evStep b
      = enqSeg b ((a + 1) / 2) ((a + k + 1) / 2 - (a + 1) / 2) := by
  intro k
  induction k with
  | zero =>
    intro a b hcl
    have e0 : (a + 0 + 1) / 2 - (a + 1) / 2 = 0 := by omega
    rw [e0, enqSeg_zero]
    rfl
  | succ k ih =>
    intro a b hcl
    rw [List.range'_succ, List.map_cons, List.foldl_cons]
    by_cases ha : a % 2 = 0
    · have hev : evAt a = Ev.enq (a / 2) := by
        unfold evAt
        rw [if_pos ha]
      rw [hev]
      show ((List.range' (a + 1) k).map evAt).foldl evStep
          (b.enqueue (recO (a / 2))) = _
      rw [ih (a + 1) _ (show (b.enqueue (recO (a / 2))).clients = [] from hcl)]
      have e3 : (a + (k + 1) + 1) / 2 - (a + 1) / 2
          = ((a + 1 + k + 1) / 2 - (a + 1 + 1) / 2) + 1 := by omega
      have e1 : (a + 1) / 2 = a / 2 := by omega
      have e2 : (a + 1 + 1) / 2 = a / 2 + 1 := by omega
      rw [e3, e1, e2, enqSeg_succ_left]
    · have hev : evAt a = Ev.bcast (a / 2) := by
        unfold evAt
        rw [if_neg ha]
      rw [hev]
      show ((List.range' (a + 1) k).map evAt).foldl evStep
          (b.broadcast (recO (a / 2))) = _
      rw [broadcast_of_no_clients _ hcl, ih (a + 1) _ hcl]
      have e1 : (a + 1 + 1) / 2 = (a + 1) / 2 := by omega
      have e2 : (a + 1 + k + 1) / 2 = (a + (k + 1) + 1) / 2 := by omega
      rw [e1, e2]

/-- Append steps `a..a+k-1` with the tracked session registered and
enough queue room: the enqueues insert records `⌈a/2⌉..⌈(a+k)/2⌉-1` and
the broadcasts push records `⌊(a+1)/2⌋..⌊(a+k+1)/2⌋-1` onto the
session's queue in order. -/
lemma fold_seg_reg :
    ∀ (k a : Nat) (b0 : Broker) (Q : List Msg), Q.length + k ≤ 512 →
    ((List.range' a k).map evAt).foldl evStep
        (withClients b0 [{ ch := Q, qcap := 512 }])
      = withClients (enqSeg b0 ((a + 1) / 2) ((a + k + 1) / 2 - (a + 1) / 2))
          [{ ch := Q ++ (List.range' (a / 2) ((a + k) / 2 - a / 2)).map recO
             qcap := 512 }] := by
  intro k
  induction k with
  | zero =>
    intro a b0 Q hbound
    have e0 : (a + 0 + 1) / 2 - (a + 1) / 2 = 0 := by omega
    have e1 : (a + 0) / 2 - a / 2 = 0 := by omega
    have hz : ∀ s : Nat, List.range' s 0 = [] := fun s => rfl
    rw [e0, e1, enqSeg_zero, hz, hz, List.map_nil, List.map_nil,
      List.foldl_nil, List.append_nil]
  | succ k ih =>
    intro a b0 Q hbound
    rw [List.range'_succ, List.map_cons, List.foldl_cons]
    by_cases ha : a % 2 = 0
    · have hev : evAt a = Ev.enq (a / 2) := by
        unfold evAt
        rw [if_pos ha]
      rw [hev]
      have hstep : evStep (withClients b0 [{ ch := Q, qcap := 512 }])
            (Ev.enq (a / 2))
          = withClients (b0.enqueue (recO (a / 2)))
              [{ ch := Q, qcap := 512 }] := rfl
      rw [hstep, ih (a + 1) (b0.enqueue (recO (a / 2))) Q (by omega)]
      have e3 : (a + (k + 1) + 1) / 2 - (a + 1) / 2
          = ((a + 1 + k + 1) / 2 - (a + 1 + 1) / 2) + 1 := by omega
      have e1 : (a + 1) / 2 = a / 2 := by omega
      have e2 : (a + 1 + 1) / 2 = a / 2 + 1 := by omega
      have e5 : (a + 1 + k) / 2 = (a + (k + 1)) / 2 := by omega
      rw [e3, e1, e2, e5, enqSeg_succ_left]
    · have hev : evAt a = Ev.bcast (a / 2) := by
        unfold evAt
        rw [if_neg ha]
      rw [hev]
      have hroom : Q.length < 512 := by omega
      have hstep : evStep (withClients b0 [{ ch := Q, qcap := 512 }])
            (Ev.bcast (a / 2))
          = withClients b0 [{ ch := Q ++ [recO (a / 2)], qcap := 512 }] := by
        show withClients b0
            [broadcastOne { ch := Q, qcap := 512 } (recO (a / 2))] = _
        rw [broadcastOne_push _
          (show ({ ch := Q, qcap := 512 } : Client).ch.length
            < ({ ch := Q, qcap := 512 } : Client).qcap from hroom)]
      rw [hstep, ih (a + 1) b0 (Q ++ [recO (a / 2)])
        (by simp only [List.length_append, List.length_cons, List.length_nil]
            omega)]
      have e1 : (a + 1 + 1) / 2 = (a + 1) / 2 := by omega
      have e2 : (a + 1 + k + 1) / 2 = (a + (k + 1) + 1) / 2 := by omega
      have e3 : (a + (k + 1)) / 2 - a / 2
          = ((a + 1 + k) / 2 - (a + 1) / 2) + 1 := by omega
      have e4 : (a + 1) / 2 = a / 2 + 1 := by omega
      rw [e1, e2, e3, List.range'_succ, List.map_cons, e4, List.append_assoc,
        List.singleton_append]

lemma clients_update_update (b : Broker) (c1 c2 : List Client) :
    ({ ({ b with clients := c1 } : Broker) with clients := c2 } : Broker)
      = { b with clients := c2 } := rfl

lemma enqSeg_chain (b : Broker) (n1 n2 : Nat) :
    enqSeg (enqSeg b 0 n1) n1 n2 = enqSeg b 0 (n1 + n2) := by
  have h := enqSeg_append b 0 n1 n2
  rw [Nat.zero_add] at h
  exact h

lemma replayList_enqSeg_fresh (cfg : Config) (n : Nat)
    (h : n ≤ (NewBroker cfg).capacity) :
    (enqSeg (NewBroker cfg) 0 n).replayList = (List.range n).map recO := by
  unfold enqSeg
  rw [replayList_ringAppendAll_fresh]
  have hlen : ((List.range' 0 n).map recO).length = n := by
    rw [List.length_map, List.length_range']
  rw [hlen]
  have hz : n - (NewBroker cfg).capacity = 0 := by omega
  rw [hz, List.drop_zero, ← List.range_eq_range']

lemma recO_injective : Function.Injective recO := by
  intro a b h
  simp [recO, encodeLine] at h
  omega

lemma metaBuf_ne_recO (cfg : Config) (i : Nat) :
    recO i ≠ (NewBroker cfg).metaBuf := by
  rw [newBroker_metaBuf]
  simp [recO, encodeLine]

lemma count_range' (i s n : Nat) :
    (List.range' s n).count i = if s ≤ i ∧ i < s + n then 1 else 0 := by
  by_cases hmem : i ∈ List.range' s n
  · rw [if_pos (List.mem_range'_1.mp hmem)]
    exact List.count_eq_one_of_mem (List.nodup_range' _ _) hmem
  · rw [List.count_eq_zero_of_not_mem hmem,
      if_neg (fun hc => hmem (List.mem_range'_1.mpr hc))]

lemma count_range (i n : Nat) :
    (List.range n).count i = if i < n then 1 else 0 := by
  rw [List.range_eq_range', count_range']
  by_cases hi : i < n
  · rw [if_pos (by omega), if_pos hi]
  · rw [if_neg (by omega), if_neg hi]

/-- C2 (amended) — Full characterisation of one session connecting
(registration, meta, replay as three atomic steps in program order)
interleaved at positions `p ≤ m ≤ q` into `K` sequential appends, each
append being TWO separately-locked atomic steps (`enqueue` at step `2i`,
`broadcast` at step `2i+1`).  With `K ≤ C` and no queue overflow
(`2K + 1 ≤ 512`), the session's queue is: the records broadcast between
registration and meta, the meta, the records broadcast between meta and
replay, the whole replayed history (records enqueued before replay),
then the records broadcast after replay.  Hence record `i` is received
`[p ≤ 2i+1] + [2i < q]` times: at least once, but TWICE whenever its
enqueue precedes the replay and its broadcast follows the registration —
the claim's "never both" fails because `appendWithWhen` releases the
lock between `enqueue` and `broadcast`. -/
theorem c2_interleaved_append_replay (cfg : Config) (K p m q : Nat)
    (hpm : p ≤ m) (hmq : m ≤ q) (hq2K : q ≤ 2 * K)
    (hKC : K ≤ (NewBroker cfg).capacity) (hbound : 2 * K + 1 ≤ 512) :
    sessionQueue (runSched cfg K p m q)
        = (List.range' (p / 2) (m / 2 - p / 2)).map recO
          ++ (NewBroker cfg).metaBuf
            :: ((List.range' (m / 2) (q / 2 - m / 2)).map recO
              ++ (List.range ((q + 1) / 2)).map recO
              ++ (List.range' (q / 2) (K - q / 2)).map recO)
    ∧ (∀ i : Nat, i < K →
        (sessionQueue (runSched cfg K p m q)).count (recO i)
          = (if p ≤ 2 * i + 1 then 1 else 0) + (if 2 * i < q then 1 else 0))
    ∧ (∀ i : Nat, i < K →
        1 ≤ (sessionQueue (runSched cfg K p m q)).count (recO i)) := by
  have hcapK : (q + 1) / 2 ≤ (NewBroker cfg).capacity := by omega
  -- segment 1: appends before registration
  have hA1 := fold_seg_unreg p 0 (NewBroker cfg) (newBroker_clients cfg)
  have e01 : (0 + 1) / 2 = 0 := by norm_num
  have e02 : (0 + p + 1) / 2 = (p + 1) / 2 := by omega
  rw [e01, e02, Nat.sub_zero] at hA1
  -- registration
  have hreg := evStep_reg (enqSeg (NewBroker cfg) 0 ((p + 1) / 2))
    (by rw [enqSeg_clients]; exact newBroker_clients cfg)
  -- segment 2: appends between registration and meta
  have hA2 := fold_seg_reg (m - p) p (enqSeg (NewBroker cfg) 0 ((p + 1) / 2))
    [] (by simp only [List.length_nil]; omega)
  have e11 : p + (m - p) = m := by omega
  rw [e11, List.nil_append, enqSeg_chain] at hA2
  have e12 : (p + 1) / 2 + ((m + 1) / 2 - (p + 1) / 2) = (m + 1) / 2 := by omega
  rw [e12] at hA2
  -- meta handshake
  have hmeta := evStep_metaS (enqSeg (NewBroker cfg) 0 ((m + 1) / 2))
    ((List.range' (p / 2) (m / 2 - p / 2)).map recO)
    ((NewBroker cfg).metaBuf)
    (enqSeg_metaBuf _ _ _)
    (by rw [List.length_map, List.length_range']; omega)
  -- segment 3: appends between meta and replay
  have hA3 := fold_seg_reg (q - m) m (enqSeg (NewBroker cfg) 0 ((m + 1) / 2))
    ((List.range' (p / 2) (m / 2 - p / 2)).map recO ++ [(NewBroker cfg).metaBuf])
    (by simp only [List.length_append, List.length_map, List.length_range',
          List.length_cons, List.length_nil]
        omega)
  have e21 : m + (q - m) = q := by omega
  rw [e21, enqSeg_chain] at hA3
  have e22 : (m + 1) / 2 + ((q + 1) / 2 - (m + 1) / 2) = (q + 1) / 2 := by omega
  rw [e22] at hA3
  -- the replay step
  have hrep := evStep_replayS (enqSeg (NewBroker cfg) 0 ((q + 1) / 2))
    (((List.range' (p / 2) (m / 2 - p / 2)).map recO
        ++ [(NewBroker cfg).metaBuf])
      ++ (List.range' (m / 2) (q / 2 - m / 2)).map recO)
    ((List.range ((q + 1) / 2)).map recO)
    (replayList_enqSeg_fresh cfg ((q + 1) / 2) hcapK)
    (by simp only [List.length_append, List.length_map, List.length_range',
          List.length_range, List.length_cons, List.length_nil]
        omega)
  -- segment 4: appends after replay
  have hA4 := fold_seg_reg (2 * K - q) q (enqSeg (NewBroker cfg) 0 ((q + 1) / 2))
    ((((List.range' (p / 2) (m / 2 - p / 2)).map recO
        ++ [(NewBroker cfg).metaBuf])
      ++ (List.range' (m / 2) (q / 2 - m / 2)).map recO)
      ++ (List.range ((q + 1) / 2)).map recO)
    (by simp only [List.length_append, List.length_map, List.length_range',
          List.length_range, List.length_cons, List.length_nil]
        omega)
  have e31 : q + (2 * K - q) = 2 * K := by omega
  rw [e31] at hA4
  have e32 : 2 * K / 2 = K := by omega
  rw [e32] at hA4
  -- assemble the run
  have hQ : sessionQueue (runSched cfg K p m q)
      = (List.range' (p / 2) (m / 2 - p / 2)).map recO
        ++ (NewBroker cfg).metaBuf
          :: ((List.range' (m / 2) (q / 2 - m / 2)).map recO
            ++ (List.range ((q + 1) / 2)).map recO
            ++ (List.range' (q / 2) (K - q / 2)).map recO) := by
    unfold runSched sched
    simp only [List.foldl_append, List.foldl_cons, List.foldl_nil]
    rw [hA1, hreg, hA2, hmeta, hA3, hrep, hA4]
    show ((((List.range' (p / 2) (m / 2 - p / 2)).map recO
          ++ [(NewBroker cfg).metaBuf])
          ++ (List.range' (m / 2) (q / 2 - m / 2)).map recO)
          ++ (List.range ((q + 1) / 2)).map recO)
          ++ (List.range' (q / 2) (K - q / 2)).map recO = _
    simp [List.append_assoc]
  have hcount : ∀ i : Nat, i < K →
      (sessionQueue (runSched cfg K p m q)).count (recO i)
        = (if p ≤ 2 * i + 1 then 1 else 0) + (if 2 * i < q then 1 else 0) := by
    intro i hi
    rw [hQ, List.count_append,
      List.count_cons_of_ne (metaBuf_ne_recO cfg i),
      List.count_append, List.count_append]
    have hc1 : ((List.range' (p / 2) (m / 2 - p / 2)).map recO).count (recO i)
        = if p / 2 ≤ i ∧ i < p / 2 + (m / 2 - p / 2) then 1 else 0 := by
      rw [List.count_map_of_injective _ recO recO_injective, count_range']
    have hc2 : ((List.range' (m / 2) (q / 2 - m / 2)).map recO).count (recO i)
        = if m / 2 ≤ i ∧ i < m / 2 + (q / 2 - m / 2) then 1 else 0 := by
      rw [List.count_map_of_injective _ recO recO_injective, count_range']
    have hcR : ((List.range ((q + 1) / 2)).map recO).count (recO i)
        = if i < (q + 1) / 2 then 1 else 0 := by
      rw [List.count_map_of_injective _ recO recO_injective, count_range]
    have hc3 : ((List.range' (q / 2) (K - q / 2)).map recO).count (recO i)
        = if q / 2 ≤ i ∧ i < q / 2 + (K - q / 2) then 1 else 0 := by
      rw [List.count_map_of_injective _ recO recO_injective, count_range']
    rw [hc1, hc2, hcR, hc3]
    split_ifs <;> omega
  refine ⟨hQ, hcount, ?_⟩
  intro i hi
  rw [hcount i hi]
  split_ifs <;> omega

/-- C2 witness: one append fully before the connect block (`p = m = q =
2`, `K = 1`): the session receives the meta and then the record exactly
once (from replay). -/
theorem c2_interleaved_witness :
    sessionQueue (runSched ⟨1, [], []⟩ 1 2 2 2)
      = [(NewBroker ⟨1, [], []⟩ : Broker).metaBuf, recO 0] := by
  have h := (c2_interleaved_append_replay ⟨1, [], []⟩ 1 2 2 2
    (by norm_num) (by norm_num) (by norm_num) (by decide) (by norm_num)).1
  rw [h]
  rfl

/-- C2 (counterexample) — One append split by the connect block: the
enqueue happens, then the session registers, gets the meta, replays
(receiving the record from the ring), and then the append's broadcast
delivers the same record again: the session receives it TWICE, refuting
"never both". -/
theorem c2_cex_duplicate_delivery :
    (sessionQueue (runSched ⟨1, [], []⟩ 1 1 1 1)).count (recO 0) = 2 := by
  decide

/-- C10 witness at a fresh session and a fresh broker. -/
theorem c10_safeSend_total_witness :
    (safeSend mkClient (recO 0)).2 = none
    ∧ (NewBroker ⟨1, [], []⟩ : Broker).sessionInit mkClient
        = some ((NewBroker ⟨1, [], []⟩ : Broker).replay
            ((safeSend mkClient (NewBroker ⟨1, [], []⟩ : Broker).metaBuf).1)) :=
  ⟨(c10_safeSend_total (NewBroker ⟨1, [], []⟩) mkClient (recO 0)
      (by decide)).1,
   (c10_safeSend_total (NewBroker ⟨1, [], []⟩) mkClient (recO 0)
      (by decide)).2.2.2⟩

end PlaneConsole
